import Mathlib

/-!
Verification of the `basis` package (`src/basis/basis.py`) against its
natural-language specification.  The Python code is shallowly embedded:
numpy float arithmetic is idealised as exact rational arithmetic (`ℚ`),
numpy integer arithmetic as `ℤ`/`ℕ`, dense matrices as lists of rows or as
total functions on indices, and Python exceptions as `Except`/`Option`
error values.  Every definition below is translated from the source file;
definitions whose name contains `spec` or `Spec` instead transcribe the
specification's wording, to be compared against the code-derived ones.
-/

/-- Model of `np.arange(a, b)` for natural bounds: the list `[a, a+1, ..., b-1]`
(empty when `b ≤ a`).  Used for the loop ranges in `Monomial.penalty`. -/
def arange (a b : ℕ) : List ℕ :=
  List.range' a (b - a)

/-- Model of `np.linspace(a, b, n)`: `n` evenly spaced rationals from `a` to
`b` inclusive.  Mirrors numpy's formula `a + i * (b - a) / (n - 1)`. -/
def linspace (a b : ℚ) (n : ℕ) : List ℚ :=
  (List.range n).map (fun (i : ℕ) => a + (b - a) * (i : ℚ) / ((n - 1 : ℕ) : ℚ))

/-- Model of `np.pad(xs, (p, p), 'edge')`: repeat the first element `p` extra
times at the front and the last element `p` extra times at the back. -/
def padEdge (p : ℕ) (xs : List ℚ) : List ℚ :=
  List.replicate p (xs.headD 0) ++ xs ++ List.replicate p (xs.getLastD 0)

/-- Embedding of `default_knots(m, K, domain)` from `src/basis/basis.py`:
`L = K - m`; `tau = np.linspace(*domain, L+2)`;
`return np.pad(tau, (m-2, m-2), 'edge')`.  The domain is passed as its two
components `a` (lower) and `b` (upper). -/
def default_knots (m K : ℕ) (a b : ℚ) : List ℚ :=
  let L := K - m
  let tau := linspace a b (L + 2)
  padEdge (m - 2) tau

/-- Single in-place entry update of a matrix represented as a total function
on indices (model of `inner_product[r, c] = v` on a numpy array). -/
def updM (M : ℕ → ℕ → ℚ) (r c : ℕ) (v : ℚ) : ℕ → ℕ → ℚ :=
  fun i j => if i = r ∧ j = c then v else M i j

/-- The integer `ipow = i + j - 2 * q + 1` computed in the inner loop of
`Monomial.penalty` (numpy int arithmetic, modelled in `ℤ`). -/
def ipowOf (q i j : ℕ) : ℤ :=
  (i : ℤ) + (j : ℤ) - 2 * (q : ℤ) + 1

/-- Embedding of the descending-factorial accumulator loop of
`Monomial.penalty`: `ifac = 1; for k in np.arange(1, q + 1): ifac *= i - k + 1`. -/
def descFac (i : ℤ) (q : ℕ) : ℤ :=
  (arange 1 (q + 1)).foldl (fun (acc : ℤ) (k : ℕ) => acc * (i - (k : ℤ) + 1)) 1

/-- Body of the inner loop of `Monomial.penalty` over `j`:
`jfac` is accumulated, `ipow = i + j - 2*q + 1`, then
`inner_product[i, j] = (U ** ipow - L ** ipow) * ifac * jfac / ipow` and
`inner_product[j, i] = inner_product[i, j]`. -/
def pstep (L U : ℚ) (q i : ℕ) (ifac : ℤ) (M : ℕ → ℕ → ℚ) (j : ℕ) : ℕ → ℕ → ℚ :=
  let jfac := descFac (j : ℤ) q
  let ipow := ipowOf q i j
  let v : ℚ := (U ^ ipow - L ^ ipow) * (ifac : ℚ) * (jfac : ℚ) / ((ipow : ℤ) : ℚ)
  let M1 := updM M i j v
  updM M1 j i (M1 i j)

/-- Body of the outer loop of `Monomial.penalty` over `i`: compute `ifac`
for row `i`, then run the inner loop for `j in np.arange(i, self.K)`. -/
def prow (L U : ℚ) (q K : ℕ) (M : ℕ → ℕ → ℚ) (i : ℕ) : ℕ → ℕ → ℚ :=
  let ifac := descFac (i : ℤ) q
  (arange i K).foldl (pstep L U q i ifac) M

/-- Embedding of `Monomial.penalty(q, k)` from `src/basis/basis.py`.  The
instance state is passed explicitly: `L`/`U` are `self.domain[0]` and
`self.domain[1]`, `K` is `self.K`.  The resolution argument `k` is accepted
(the Python signature is `penalty(self, q, k=12)`) and, as in the source,
never used.  `inner_product = np.zeros((self.K, self.K))` is modelled as the
constantly-zero index function; indices `≥ K` are never written. -/
def Monomial.penalty (L U : ℚ) (K : ℕ) (q : ℕ) (k : ℕ) : ℕ → ℕ → ℚ :=
  (arange q K).foldl (prow L U q K) (fun _ _ => 0)

/-- Model of `np.prod(range(a, b))` over Python integers: the product of the
integers `a, a+1, ..., b-1` (`1` when `b ≤ a`). -/
def npProdRange (a b : ℤ) : ℤ :=
  ((List.range (b - a).toNat).map (fun (m : ℕ) => a + (m : ℤ))).prod

/-- Model of `np.vander(x, N=deg, increasing=True)`: the row for sample `t`
is `[t^0, t^1, ..., t^(deg-1)]`. -/
def vander (x : List ℚ) (deg : ℕ) : List (List ℚ) :=
  x.map (fun t => (List.range deg).map (fun c => t ^ c))

/-- Embedding of `Monomial._evaluate_basis(x, q)` from `src/basis/basis.py`:
`monomial_vecs = np.vander(x, N=deg, increasing=True)`; when `q != 0`,
`fac = [np.prod(range(f + 1 - q, f + 1)) if f > 0 else 0 for f in range(0, deg)]`
and `monomial_vecs = fac * ((np.c_[np.ones((len(x), q)), monomial_vecs])[:, :-q])`.
Prepending `q` columns of ones and dropping the last `q` columns is
`(replicate q 1 ++ row).take K`; the broadcast product with `fac` is a
columnwise `zipWith`. -/
def Monomial.evaluate_basis (K : ℕ) (x : List ℚ) (q : ℕ) : List (List ℚ) :=
  let monomial_vecs := vander x K
  if q ≠ 0 then
    let fac : List ℤ :=
      (List.range K).map (fun (f : ℕ) =>
        if 0 < f then npProdRange ((f : ℤ) + 1 - (q : ℤ)) ((f : ℤ) + 1) else 0)
    monomial_vecs.map (fun row =>
      List.zipWith (fun (c : ℤ) (v : ℚ) => (c : ℚ) * v) fac
        ((List.replicate q (1 : ℚ) ++ row).take K))
  else
    monomial_vecs

/-- Embedding of `Basis.__call__(x, q)` from `src/basis/basis.py`: raise
`ValueError` unless `np.all(domain[0] <= x) and np.all(x <= domain[1])`,
otherwise return `self._evaluate_basis(x, q)`.  The family-specific routine
is passed as the function argument `evalB`. -/
def Basis.call (domain : ℚ × ℚ) (evalB : List ℚ → ℕ → List (List ℚ))
    (x : List ℚ) (q : ℕ) : Except String (List (List ℚ)) :=
  if (x.all fun t => decide (domain.1 ≤ t)) && (x.all fun t => decide (t ≤ domain.2)) then
    Except.ok (evalB x q)
  else
    Except.error "Arguments must all be within the domain of the basis system"

/-- Python numeric-like values fed to the `K` setter: an `int`, a `float`
(idealised as an exact rational), or a value `int()` cannot convert. -/
inductive NumLike where
  | int : ℤ → NumLike
  | float : ℚ → NumLike
  | nonNumeric : String → NumLike

/-- Truncation of a rational toward zero, the behaviour of Python
`int(float)`. -/
def ratTrunc (r : ℚ) : ℤ :=
  if 0 ≤ r then ⌊r⌋ else -⌊-r⌋

/-- Model of Python `int(v)` on a numeric-like value: identity on ints,
truncation toward zero on floats, `ValueError` on non-convertible input. -/
def pyInt : NumLike → Except String ℤ
  | NumLike.int n => Except.ok n
  | NumLike.float r => Except.ok (ratTrunc r)
  | NumLike.nonNumeric s => Except.error ("invalid literal for int(): " ++ s)

/-- Embedding of the `Basis.K` setter from `src/basis/basis.py`: its whole
body is `self.__K = int(K)`; the stored value is returned on success. -/
def Basis.setK (v : NumLike) : Except String ℤ :=
  pyInt v

/-- The mutable state of a `Basis` object: the stored domain (a Python tuple
modelled as a list of rationals) and the stored basis count. -/
structure BasisState where
  domain : List ℚ
  Kstored : ℤ

/-- Embedding of the `Basis.domain` setter from `src/basis/basis.py`:
`if len(domain) != 2: raise ValueError(...)` then `self.__domain = domain`.
Returns the state after the call together with the raised message, if any;
a raise aborts before the assignment, so the prior state is returned. -/
def Basis.setDomain (st : BasisState) (d : List ℚ) : BasisState × Option String :=
  if d.length ≠ 2 then
    (st, some "domain must be of length 2.")
  else
    (BasisState.mk d st.Kstored, none)

/-- Transcribed from the specification of claim C1: the descending factorial
`ifac = ∏_{k=1}^{q} (i - k + 1)`. -/
def specIfac (i q : ℕ) : ℤ :=
  ∏ k ∈ Finset.Icc 1 q, ((i : ℤ) - (k : ℤ) + 1)

/-- Transcribed from the specification of claim C2: the coefficient
`k (k-1) ... (k - q + 1)` of the `q`-th derivative of `t ^ k`. -/
def descSpec (k q : ℕ) : ℤ :=
  ∏ m ∈ Finset.range q, ((k : ℤ) - (m : ℤ))

/-- The value the penalty loop body stores at positions `(i, j)` and
`(j, i)` (used only to state loop-invariant lemmas about `Monomial.penalty`). -/
def entryVal (L U : ℚ) (q i j : ℕ) : ℚ :=
  (U ^ ipowOf q i j - L ^ ipowOf q i j) * (descFac (i : ℤ) q : ℚ) *
    (descFac (j : ℤ) q : ℚ) / ((ipowOf q i j : ℤ) : ℚ)

lemma arange_succ_top (a b : ℕ) (h : a ≤ b) :
    arange a (b + 1) = arange a b ++ [b] := by
  unfold arange
  have h1 : b + 1 - a = (b - a) + 1 := by omega
  rw [h1, List.range'_1_concat]
  have h2 : a + (b - a) = b := by omega
  rw [h2]

lemma mem_arange (m a b : ℕ) : m ∈ arange a b ↔ a ≤ m ∧ m < b := by
  unfold arange
  rw [List.mem_range']
  constructor
  · rintro ⟨i, hi, rfl⟩
    omega
  · intro h
    refine ⟨m - a, by omega, by omega⟩

lemma descFac_eq_prod (i : ℤ) (q : ℕ) :
    descFac i q = ∏ m ∈ Finset.range q, (i - (m : ℤ)) := by
  induction q with
  | zero => rfl
  | succ n ih =>
    have h : arange 1 (n + 1 + 1) = arange 1 (n + 1) ++ [n + 1] := by
      apply arange_succ_top
      omega
    rw [descFac, h, List.foldl_append, Finset.prod_range_succ, ← descFac]
    rw [ih]
    simp only [List.foldl_cons, List.foldl_nil]
    push_cast
    ring

lemma specIfac_eq_descFac (i q : ℕ) : specIfac i q = descFac (i : ℤ) q := by
  rw [descFac_eq_prod]
  induction q with
  | zero => rfl
  | succ n ih =>
    rw [specIfac, Finset.prod_Icc_succ_top (by omega), ← specIfac, ih,
      Finset.prod_range_succ]
    push_cast
    ring

lemma list_range_map_prod (g : ℕ → ℤ) (n : ℕ) :
    ((List.range n).map g).prod = ∏ m ∈ Finset.range n, g m := by
  induction n with
  | zero => rfl
  | succ k ih =>
    rw [List.range_succ, List.map_append, List.prod_append, ih,
      Finset.prod_range_succ]
    simp

lemma descSpec_eq_npProdRange (f q : ℕ) :
    npProdRange ((f : ℤ) + 1 - (q : ℤ)) ((f : ℤ) + 1) = descSpec f q := by
  unfold npProdRange descSpec
  have h1 : ((f : ℤ) + 1 - ((f : ℤ) + 1 - (q : ℤ))).toNat = q := by omega
  rw [h1, list_range_map_prod]
  rw [← Finset.prod_range_reflect (fun j => (f : ℤ) - (j : ℤ)) q]
  apply Finset.prod_congr rfl
  intro j hj
  rw [Finset.mem_range] at hj
  have h2 : ((q - 1 - j : ℕ) : ℤ) = (q : ℤ) - 1 - (j : ℤ) := by omega
  rw [h2]
  ring

lemma descSpec_eq_zero_of_lt (k q : ℕ) (h : k < q) : descSpec k q = 0 := by
  unfold descSpec
  apply Finset.prod_eq_zero (Finset.mem_range.mpr h)
  simp

lemma descFac_cast_eq_descSpec (j q : ℕ) : descFac (j : ℤ) q = descSpec j q := by
  rw [descFac_eq_prod]
  rfl

lemma entryVal_symm (L U : ℚ) (q i j : ℕ) :
    entryVal L U q i j = entryVal L U q j i := by
  unfold entryVal
  rw [show ipowOf q i j = ipowOf q j i by unfold ipowOf; ring]
  ring

lemma pstep_apply (L U : ℚ) (q i : ℕ) (ifac : ℤ) (M : ℕ → ℕ → ℚ) (j r c : ℕ)
    (hifac : ifac = descFac (i : ℤ) q) :
    pstep L U q i ifac M j r c =
      if (r = i ∧ c = j) ∨ (r = j ∧ c = i) then entryVal L U q i j else M r c := by
  subst hifac
  simp only [pstep, updM, entryVal]
  by_cases h1 : r = i ∧ c = j <;> by_cases h2 : r = j ∧ c = i <;>
    simp [h1, h2]

lemma inner_fold_apply (L U : ℚ) (q i : ℕ) :
    ∀ (n j0 : ℕ) (M : ℕ → ℕ → ℚ), i ≤ j0 → ∀ r c,
      ((List.range' j0 n).foldl (pstep L U q i (descFac (i : ℤ) q)) M) r c =
        if (r = i ∧ j0 ≤ c ∧ c < j0 + n) ∨ (c = i ∧ j0 ≤ r ∧ r < j0 + n)
        then entryVal L U q r c else M r c := by
  intro n
  induction n with
  | zero =>
    intro j0 M hij r c
    have h : ¬((r = i ∧ j0 ≤ c ∧ c < j0 + 0) ∨ (c = i ∧ j0 ≤ r ∧ r < j0 + 0)) := by
      omega
    rw [if_neg h]
    rfl
  | succ n ih =>
    intro j0 M hij r c
    rw [List.range'_succ, List.foldl_cons, ih (j0 + 1) _ (by omega) r c]
    by_cases hC : (r = i ∧ j0 ≤ c ∧ c < j0 + (n + 1)) ∨ (c = i ∧ j0 ≤ r ∧ r < j0 + (n + 1))
    · rw [if_pos hC]
      by_cases hA : (r = i ∧ j0 + 1 ≤ c ∧ c < j0 + 1 + n) ∨ (c = i ∧ j0 + 1 ≤ r ∧ r < j0 + 1 + n)
      · rw [if_pos hA]
      · rw [if_neg hA, pstep_apply _ _ _ _ _ _ _ _ _ rfl]
        have hB : (r = i ∧ c = j0) ∨ (r = j0 ∧ c = i) := by omega
        rw [if_pos hB]
        rcases hB with ⟨hr, hc⟩ | ⟨hr, hc⟩
        · rw [hr, hc]
        · rw [hr, hc]
          exact entryVal_symm L U q i j0
    · have hA : ¬((r = i ∧ j0 + 1 ≤ c ∧ c < j0 + 1 + n) ∨ (c = i ∧ j0 + 1 ≤ r ∧ r < j0 + 1 + n)) := by
        omega
      have hB : ¬((r = i ∧ c = j0) ∨ (r = j0 ∧ c = i)) := by omega
      rw [if_neg hC, if_neg hA, pstep_apply _ _ _ _ _ _ _ _ _ rfl, if_neg hB]

lemma prow_apply (L U : ℚ) (q K : ℕ) (M : ℕ → ℕ → ℚ) (i r c : ℕ) (hiK : i < K) :
    prow L U q K M i r c =
      if (r = i ∧ i ≤ c ∧ c < K) ∨ (c = i ∧ i ≤ r ∧ r < K)
      then entryVal L U q r c else M r c := by
  unfold prow arange
  rw [inner_fold_apply L U q i (K - i) i M le_rfl r c]
  have h : i + (K - i) = K := by omega
  rw [h]

lemma outer_fold_apply (L U : ℚ) (q K : ℕ) :
    ∀ (n a : ℕ) (M : ℕ → ℕ → ℚ), q ≤ a → a + n ≤ K →
      (∀ r c, M r c =
        if q ≤ r ∧ q ≤ c ∧ (r < a ∨ c < a) ∧ r < K ∧ c < K
        then entryVal L U q r c else 0) →
      ∀ r c, ((List.range' a n).foldl (prow L U q K) M) r c =
        if q ≤ r ∧ q ≤ c ∧ (r < a + n ∨ c < a + n) ∧ r < K ∧ c < K
        then entryVal L U q r c else 0 := by
  intro n
  induction n with
  | zero =>
    intro a M ha haK hM r c
    simpa using hM r c
  | succ n ih =>
    intro a M ha haK hM r c
    rw [List.range'_succ, List.foldl_cons]
    have hinv : ∀ r c, prow L U q K M a r c =
        if q ≤ r ∧ q ≤ c ∧ (r < a + 1 ∨ c < a + 1) ∧ r < K ∧ c < K
        then entryVal L U q r c else 0 := by
      intro r c
      rw [prow_apply L U q K M a r c (by omega)]
      by_cases hD : (r = a ∧ a ≤ c ∧ c < K) ∨ (c = a ∧ a ≤ r ∧ r < K)
      · rw [if_pos hD]
        have : q ≤ r ∧ q ≤ c ∧ (r < a + 1 ∨ c < a + 1) ∧ r < K ∧ c < K := by omega
        rw [if_pos this]
      · rw [if_neg hD, hM r c]
        by_cases hE : q ≤ r ∧ q ≤ c ∧ (r < a ∨ c < a) ∧ r < K ∧ c < K
        · rw [if_pos hE]
          have : q ≤ r ∧ q ≤ c ∧ (r < a + 1 ∨ c < a + 1) ∧ r < K ∧ c < K := by omega
          rw [if_pos this]
        · rw [if_neg hE]
          have : ¬(q ≤ r ∧ q ≤ c ∧ (r < a + 1 ∨ c < a + 1) ∧ r < K ∧ c < K) := by
            omega
          rw [if_neg this]
    rw [ih (a + 1) _ (by omega) (by omega) hinv r c]
    have h1 : a + 1 + n = a + (n + 1) := by omega
    rw [h1]

lemma penalty_entry (L U : ℚ) (K q k r c : ℕ) :
    Monomial.penalty L U K q k r c =
      if q ≤ r ∧ q ≤ c ∧ r < K ∧ c < K then entryVal L U q r c else 0 := by
  unfold Monomial.penalty arange
  by_cases hqK : q ≤ K
  · have hbase : ∀ r c, (fun _ _ => (0 : ℚ)) r c =
        if q ≤ r ∧ q ≤ c ∧ (r < q ∨ c < q) ∧ r < K ∧ c < K
        then entryVal L U q r c else 0 := by
      intro r c
      have h : ¬(q ≤ r ∧ q ≤ c ∧ (r < q ∨ c < q) ∧ r < K ∧ c < K) := by omega
      rw [if_neg h]
    rw [outer_fold_apply L U q K (K - q) q _ le_rfl (by omega) hbase r c]
    have h1 : q + (K - q) = K := by omega
    rw [h1]
    by_cases h2 : q ≤ r ∧ q ≤ c ∧ r < K ∧ c < K
    · have : q ≤ r ∧ q ≤ c ∧ (r < K ∨ c < K) ∧ r < K ∧ c < K := by omega
      rw [if_pos this, if_pos h2]
    · have : ¬(q ≤ r ∧ q ≤ c ∧ (r < K ∨ c < K) ∧ r < K ∧ c < K) := by omega
      rw [if_neg this, if_neg h2]
  · have h0 : K - q = 0 := by omega
    rw [h0]
    have h : ¬(q ≤ r ∧ q ≤ c ∧ r < K ∧ c < K) := by omega
    rw [if_neg h]
    rfl

lemma linspace_length (a b : ℚ) (n : ℕ) : (linspace a b n).length = n := by
  unfold linspace
  rw [List.length_map, List.length_range]

lemma linspace_headD (a b : ℚ) (n : ℕ) (h : 1 ≤ n) : (linspace a b n).headD 0 = a := by
  unfold linspace
  obtain ⟨m, rfl⟩ : ∃ m, n = m + 1 := ⟨n - 1, by omega⟩
  rw [List.range_succ_eq_map]
  simp

lemma linspace_getLastD (a b : ℚ) (n : ℕ) (h : 2 ≤ n) :
    (linspace a b n).getLastD 0 = b := by
  unfold linspace
  obtain ⟨m, rfl⟩ : ∃ m, n = m + 1 := ⟨n - 1, by omega⟩
  rw [List.range_succ, List.map_append]
  simp only [List.map_cons, List.map_nil, List.getLastD_concat]
  have hm : ((m : ℕ) : ℚ) ≠ 0 := Nat.cast_ne_zero.mpr (by omega)
  have h1 : (m + 1 - 1 : ℕ) = m := by omega
  rw [h1, mul_div_assoc, div_self hm, mul_one]
  ring

/-- C1: for every domain `(L, U)`, basis count `K`, derivative order `q ≥ 0`
and resolution `k`, entry `(i, j)` of the matrix returned by
`Monomial.penalty(q, k)` equals `(U^p - L^p) * ifac * jfac / p` with
`p = i + j - 2q + 1`, `ifac = ∏_{t=1}^{q} (i - t + 1)` and
`jfac = ∏_{t=1}^{q} (j - t + 1)` whenever `i ≥ q` and `j ≥ q`, and equals `0`
whenever `i < q` or `j < q`. -/
theorem monomial_penalty_closed_form (L U : ℚ) (K q k i j : ℕ)
    (hi : i < K) (hj : j < K) :
    Monomial.penalty L U K q k i j =
      if q ≤ i ∧ q ≤ j then
        (U ^ ((i : ℤ) + (j : ℤ) - 2 * (q : ℤ) + 1) -
            L ^ ((i : ℤ) + (j : ℤ) - 2 * (q : ℤ) + 1)) *
          (specIfac i q : ℚ) * (specIfac j q : ℚ) /
          (((i : ℤ) + (j : ℤ) - 2 * (q : ℤ) + 1 : ℤ) : ℚ)
      else 0 := by
  rw [penalty_entry]
  by_cases h : q ≤ i ∧ q ≤ j
  · rw [if_pos ⟨h.1, h.2, hi, hj⟩, if_pos h]
    unfold entryVal ipowOf
    rw [specIfac_eq_descFac, specIfac_eq_descFac]
  · rw [if_neg (fun hc => h ⟨hc.1, hc.2.1⟩), if_neg h]

theorem monomial_penalty_closed_form_witness :
    (3 < 8 ∧ 5 < 8) ∧
    Monomial.penalty 0 1 8 1 12 3 5 =
      (if 1 ≤ 3 ∧ 1 ≤ 5 then
        ((1 : ℚ) ^ ((3 : ℤ) + (5 : ℤ) - 2 * (1 : ℤ) + 1) -
            (0 : ℚ) ^ ((3 : ℤ) + (5 : ℤ) - 2 * (1 : ℤ) + 1)) *
          (specIfac 3 1 : ℚ) * (specIfac 5 1 : ℚ) /
          (((3 : ℤ) + (5 : ℤ) - 2 * (1 : ℤ) + 1 : ℤ) : ℚ)
      else 0) :=
  ⟨by decide, monomial_penalty_closed_form 0 1 8 1 12 3 5 (by decide) (by decide)⟩

/-- C6: for every domain, basis count, derivative order and resolution, the
matrix returned by `Monomial.penalty` is symmetric. -/
theorem monomial_penalty_symmetric (L U : ℚ) (K q k i j : ℕ) :
    Monomial.penalty L U K q k i j = Monomial.penalty L U K q k j i := by
  rw [penalty_entry, penalty_entry]
  by_cases h : q ≤ i ∧ q ≤ j ∧ i < K ∧ j < K
  · rw [if_pos h, if_pos ⟨h.2.1, h.1, h.2.2.2, h.2.2.1⟩, entryVal_symm]
  · rw [if_neg h, if_neg (fun hc => h ⟨hc.2.1, hc.1, hc.2.2.2, hc.2.2.1⟩)]

/-- C7: row of index 3 of `Monomial((0,1), 8).penalty(1)` is exactly
`[0, 1, 3/2, 9/5, 2, 15/7, 9/4, 7/3]`. -/
theorem monomial_penalty_row_three :
    (List.range 8).map (fun j => Monomial.penalty 0 1 8 1 12 3 j) =
      [0, 1, 3/2, 9/5, 2, 15/7, 9/4, 7/3] := by
  have hrange : List.range 8 = [0, 1, 2, 3, 4, 5, 6, 7] := rfl
  have hd : ∀ i : ℤ, descFac i 1 = i := by
    intro i
    rw [descFac_eq_prod]
    simp
  rw [hrange]
  simp only [List.map_cons, List.map_nil, penalty_entry]
  norm_num [entryVal, ipowOf, hd]

/-- C10: for every index pair `(i, j)` visited by the double loop of
`Monomial.penalty` (outer loop `i` over `np.arange(q, K)`, inner loop `j`
over `np.arange(i, K)`), the divisor `ipow = i + j - 2q + 1` is at least 1,
and in particular is nonzero as a rational, so no entry computation divides
by zero. -/
theorem penalty_divisor_positive (K q i j : ℕ)
    (hi : i ∈ arange q K) (hj : j ∈ arange i K) :
    1 ≤ ipowOf q i j ∧ ((ipowOf q i j : ℤ) : ℚ) ≠ 0 := by
  rw [mem_arange] at hi hj
  unfold ipowOf
  refine ⟨by omega, Int.cast_ne_zero.mpr (by omega)⟩

theorem penalty_divisor_positive_witness :
    1 ≤ ipowOf 1 1 2 ∧ ((ipowOf 1 1 2 : ℤ) : ℚ) ≠ 0 :=
  penalty_divisor_positive 3 1 1 2 (by decide) (by decide)

/-- C3: the code's `default_knots(3, 8, (-1, 1))` is the nine-element vector
`[-1, -1, -2/3, -1/3, 0, 1/3, 2/3, 1, 1]`, not the eleven-element clamped
knot vector `[-1, -1, -1, -2/3, -1/3, 0, 1/3, 2/3, 1, 1, 1]` of length
`K + m` that the specification (and the repository's own test
`TestBspline.test_knots`) requires: the `'edge'` padding uses `m - 2`
instead of `m - 1`. -/
theorem default_knots_pads_two_short :
    default_knots 3 8 (-1) 1 =
      [-1, -1, -2/3, -1/3, 0, 1/3, 2/3, 1, 1] ∧
    (default_knots 3 8 (-1) 1).length = 9 ∧
    (default_knots 3 8 (-1) 1).length ≠ 8 + 3 := by
  refine ⟨?_, by decide, by decide⟩
  show padEdge 1 (linspace (-1) 1 7) = _
  norm_num [padEdge, linspace, List.range_succ]

/-- C8: for every spline order `m ≥ 2` and basis count `K ≥ m`,
`default_knots(m, K, (a, b))` is the `K - m + 2`-point inclusive linspace
from `a` to `b` (first point `a`, last point `b`), padded on each end by
repeating the corresponding boundary value `m - 2` additional times. -/
theorem default_knots_linspace_padded (m K : ℕ) (a b : ℚ)
    (hm : 2 ≤ m) (hK : m ≤ K) :
    default_knots m K a b =
      List.replicate (m - 2) a ++ linspace a b (K - m + 2) ++
        List.replicate (m - 2) b ∧
    (linspace a b (K - m + 2)).length = K - m + 2 ∧
    (linspace a b (K - m + 2)).headD 0 = a ∧
    (linspace a b (K - m + 2)).getLastD 0 = b := by
  refine ⟨?_, linspace_length a b _, linspace_headD a b _ (by omega),
    linspace_getLastD a b _ (by omega)⟩
  show padEdge (m - 2) (linspace a b (K - m + 2)) = _
  unfold padEdge
  rw [linspace_headD a b _ (by omega), linspace_getLastD a b _ (by omega)]

theorem default_knots_linspace_padded_witness :
    default_knots 3 8 (-1) 1 =
      List.replicate 1 (-1) ++ linspace (-1) 1 7 ++ List.replicate 1 1 ∧
    (linspace (-1) 1 7).length = 7 ∧
    (linspace (-1) 1 7).headD 0 = -1 ∧
    (linspace (-1) 1 7).getLastD 0 = 1 :=
  default_knots_linspace_padded 3 8 (-1) 1 (by decide) (by decide)

lemma gdMap {α β : Type} (f : α → β) (d : β) (a0 : α) :
    ∀ (l : List α) (n : ℕ), n < l.length → (l.map f).getD n d = f (l.getD n a0) := by
  intro l
  induction l with
  | nil =>
    intro n h
    simp at h
  | cons x xs ih =>
    intro n h
    cases n with
    | zero => rfl
    | succ m =>
      show (xs.map f).getD m d = f (xs.getD m a0)
      exact ih m (by simp at h; omega)

lemma gdZip {α β γ : Type} (f : α → β → γ) (d : γ) (a0 : α) (b0 : β) :
    ∀ (l1 : List α) (l2 : List β) (n : ℕ), n < l1.length → n < l2.length →
      (List.zipWith f l1 l2).getD n d = f (l1.getD n a0) (l2.getD n b0) := by
  intro l1
  induction l1 with
  | nil =>
    intro l2 n h1 h2
    simp at h1
  | cons x xs ih =>
    intro l2 n h1 h2
    cases l2 with
    | nil => simp at h2
    | cons y ys =>
      cases n with
      | zero => rfl
      | succ m =>
        show (List.zipWith f xs ys).getD m d = f (xs.getD m a0) (ys.getD m b0)
        exact ih ys m (by simp at h1; omega) (by simp at h2; omega)

lemma gdRange (d : ℕ) : ∀ (n k : ℕ), k < n → (List.range n).getD k d = k := by
  intro n
  induction n with
  | zero =>
    intro k h
    omega
  | succ m ih =>
    intro k h
    rw [List.range_succ]
    by_cases hk : k < m
    · rw [List.getD_append _ _ _ _ (by simpa using hk)]
      exact ih k hk
    · have hk2 : k = m := by omega
      subst hk2
      rw [List.getD_append_right _ _ _ _ (by simp)]
      simp

lemma gdAppendRight {α : Type} (d : α) :
    ∀ (l1 l2 : List α) (n : ℕ), l1.length ≤ n →
      (l1 ++ l2).getD n d = l2.getD (n - l1.length) d := by
  intro l1
  induction l1 with
  | nil =>
    intro l2 n h
    simp
  | cons x xs ih =>
    intro l2 n h
    cases n with
    | zero => simp at h
    | succ m =>
      show (xs ++ l2).getD m d = l2.getD (m + 1 - (xs.length + 1)) d
      rw [ih l2 m (by simp at h; omega)]
      congr 1
      omega

lemma gdTake {α : Type} (d : α) :
    ∀ (l : List α) (n k : ℕ), k < n → (l.take n).getD k d = l.getD k d := by
  intro l
  induction l with
  | nil =>
    intro n k h
    simp
  | cons x xs ih =>
    intro n k h
    cases n with
    | zero => omega
    | succ m =>
      cases k with
      | zero => rfl
      | succ p =>
        show (xs.take m).getD p d = xs.getD p d
        exact ih m p (by omega)

lemma gdReplicate {α : Type} (d c : α) :
    ∀ (q k : ℕ), k < q → (List.replicate q c).getD k d = c := by
  intro q
  induction q with
  | zero =>
    intro k h
    omega
  | succ m ih =>
    intro k h
    cases k with
    | zero => rfl
    | succ p =>
      show (List.replicate m c).getD p d = c
      exact ih p (by omega)

lemma evaluate_basis_shape (K q : ℕ) (x : List ℚ) :
    (Monomial.evaluate_basis K x q).length = x.length ∧
    ∀ row ∈ Monomial.evaluate_basis K x q, row.length = K := by
  by_cases hq : q = 0
  · subst hq
    simp only [Monomial.evaluate_basis, vander]
    rw [if_neg (by simp)]
    refine ⟨List.length_map x _, ?_⟩
    intro row hrow
    rw [List.mem_map] at hrow
    obtain ⟨t, ht, rfl⟩ := hrow
    rw [List.length_map, List.length_range]
  · simp only [Monomial.evaluate_basis, vander]
    rw [if_pos hq]
    constructor
    · rw [List.length_map, List.length_map]
    · intro row hrow
      rw [List.mem_map] at hrow
      obtain ⟨row0, hrow0, rfl⟩ := hrow
      rw [List.mem_map] at hrow0
      obtain ⟨t, ht, rfl⟩ := hrow0
      rw [List.length_zipWith, List.length_map, List.length_range,
        List.length_take, List.length_append, List.length_replicate,
        List.length_map, List.length_range]
      omega

lemma evaluate_basis_entry (K q : ℕ) (x : List ℚ) (r k : ℕ)
    (hr : r < x.length) (hk : k < K) :
    ((Monomial.evaluate_basis K x q).getD r []).getD k 0 =
      if q ≤ k then ((descSpec k q : ℤ) : ℚ) * (x.getD r 0) ^ (k - q) else 0 := by
  by_cases hq : q = 0
  · subst hq
    simp only [Monomial.evaluate_basis, vander]
    rw [if_neg (by simp)]
    rw [gdMap _ _ 0 x r hr]
    rw [gdMap _ _ 0 (List.range K) k (by simpa using hk)]
    rw [gdRange 0 K k hk]
    rw [if_pos (by omega)]
    simp [descSpec]
  · simp only [Monomial.evaluate_basis, vander]
    rw [if_pos hq, List.map_map]
    rw [gdMap _ _ 0 x r hr]
    simp only [Function.comp_apply]
    rw [gdZip _ 0 0 0 _ _ k
      (by rw [List.length_map, List.length_range]; exact hk)
      (by
        rw [List.length_take, List.length_append, List.length_replicate,
          List.length_map, List.length_range]
        omega)]
    rw [gdMap _ _ 0 (List.range K) k (by simpa using hk), gdRange 0 K k hk]
    rw [gdTake 0 _ K k hk]
    by_cases hkq : q ≤ k
    · rw [List.getD_append_right _ _ _ _ (by rw [List.length_replicate]; omega)]
      rw [List.length_replicate]
      rw [gdMap _ _ 0 (List.range K) (k - q) (by simp only [List.length_range]; omega)]
      rw [gdRange 0 K (k - q) (by omega)]
      rw [if_pos (by omega), if_pos hkq]
      rw [descSpec_eq_npProdRange]
    · rw [List.getD_append _ _ _ _ (by rw [List.length_replicate]; omega)]
      rw [gdReplicate 0 1 q k (by omega)]
      rw [if_neg hkq]
      by_cases hk0 : 0 < k
      · rw [if_pos hk0, descSpec_eq_npProdRange,
          descSpec_eq_zero_of_lt k q (by omega)]
        simp
      · rw [if_neg hk0]
        simp

/-- C2: for every basis count `K`, derivative order `q ≥ 0` and sample
vector `x`, `Monomial._evaluate_basis(x, q)` is an `n × K` matrix
(`n = len(x)`) whose entry in row `r`, column `k` is the descending
factorial `k (k-1) ⋯ (k-q+1)` times `x_r ^ (k-q)` when `k ≥ q`, and `0`
when `k < q` (which for `q = 0` means column `k` is `x ^ k` elementwise,
so column 0 is all ones). -/
theorem monomial_evaluate_basis_columns (K q : ℕ) (x : List ℚ) :
    (Monomial.evaluate_basis K x q).length = x.length ∧
    (∀ row ∈ Monomial.evaluate_basis K x q, row.length = K) ∧
    ∀ r k, r < x.length → k < K →
      ((Monomial.evaluate_basis K x q).getD r []).getD k 0 =
        if q ≤ k then ((descSpec k q : ℤ) : ℚ) * (x.getD r 0) ^ (k - q) else 0 :=
  ⟨(evaluate_basis_shape K q x).1, (evaluate_basis_shape K q x).2,
    fun r k hr hk => evaluate_basis_entry K q x r k hr hk⟩

theorem monomial_evaluate_basis_columns_witness :
    ((Monomial.evaluate_basis 3 [1/2] 1).getD 0 []).getD 2 0 =
      if 1 ≤ 2 then ((descSpec 2 1 : ℤ) : ℚ) * (([1/2] : List ℚ).getD 0 0) ^ (2 - 1)
      else 0 :=
  (monomial_evaluate_basis_columns 3 1 [1/2]).2.2 0 2 (by decide) (by decide)

/-- C4: `Basis.__call__(x, q)` raises `ValueError` if and only if some
element of `x` lies outside the closed interval `[domain[0], domain[1]]`;
when every element lies inside, it returns exactly the matrix produced by
the family routine `_evaluate_basis(x, q)`; and in the error case the
outcome is independent of the family routine, so no family evaluation
result is observable before the domain check. -/
theorem basis_call_domain_check (d : ℚ × ℚ) (evalB : List ℚ → ℕ → List (List ℚ))
    (x : List ℚ) (q : ℕ) :
    ((∃ e, Basis.call d evalB x q = Except.error e) ↔ ∃ t ∈ x, t < d.1 ∨ d.2 < t) ∧
    ((∀ t ∈ x, d.1 ≤ t ∧ t ≤ d.2) → Basis.call d evalB x q = Except.ok (evalB x q)) ∧
    ((∃ t ∈ x, t < d.1 ∨ d.2 < t) →
      ∀ evalB2, Basis.call d evalB x q = Basis.call d evalB2 x q) := by
  unfold Basis.call
  by_cases h : ((x.all fun t => decide (d.1 ≤ t)) && (x.all fun t => decide (t ≤ d.2))) = true
  · rw [if_pos h]
    simp only [Bool.and_eq_true, List.all_eq_true, decide_eq_true_eq] at h
    have hin : ¬∃ t ∈ x, t < d.1 ∨ d.2 < t := by
      rintro ⟨t, ht, hlt | hgt⟩
      · exact absurd (h.1 t ht) (not_le.mpr hlt)
      · exact absurd (h.2 t ht) (not_le.mpr hgt)
    refine ⟨⟨?_, fun hc => absurd hc hin⟩, fun _ => rfl, fun hc => absurd hc hin⟩
    rintro ⟨e, he⟩
    exact absurd he (by simp)
  · rw [if_neg h]
    have hout : ∃ t ∈ x, t < d.1 ∨ d.2 < t := by
      simp only [Bool.and_eq_true, List.all_eq_true, decide_eq_true_eq, not_and_or] at h
      rcases h with h | h
      · push_neg at h
        obtain ⟨t, ht, hlt⟩ := h
        exact ⟨t, ht, Or.inl hlt⟩
      · push_neg at h
        obtain ⟨t, ht, hgt⟩ := h
        exact ⟨t, ht, Or.inr hgt⟩
    refine ⟨⟨fun _ => hout, fun _ => ⟨_, rfl⟩⟩, ?_, ?_⟩
    · intro hall
      obtain ⟨t, ht, hlt | hgt⟩ := hout
      · exact absurd (hall t ht).1 (not_le.mpr hlt)
      · exact absurd (hall t ht).2 (not_le.mpr hgt)
    · intro _ evalB2
      rw [if_neg h]

theorem basis_call_domain_check_witness :
    Basis.call (0, 1) vander [1/2, 1] 0 = Except.ok (vander [1/2, 1] 0) :=
  (basis_call_domain_check (0, 1) vander [1/2, 1] 0).2.1 (by
    intro t ht
    simp only [List.mem_cons, List.not_mem_nil, or_false] at ht
    rcases ht with rfl | rfl <;> norm_num)

/-- C5 counterexample: assigning the non-positive value `-5` to `K`
succeeds and stores `-5`; the setter performs no positivity validation,
refuting the claim that any non-positive value fails. -/
theorem setK_accepts_negative :
    Basis.setK (NumLike.int (-5)) = Except.ok (-5) := rfl

/-- C5 (amended): the `K` setter is exactly `int(K)` coercion: every
integer value is accepted unchanged (including zero and negative values),
every float is truncated toward zero and accepted, and only input that
`int()` cannot convert raises a validation error.  No positivity check is
performed. -/
theorem setK_int_coercion_only :
    (∀ n : ℤ, Basis.setK (NumLike.int n) = Except.ok n) ∧
    (∀ r : ℚ, Basis.setK (NumLike.float r) = Except.ok (ratTrunc r)) ∧
    (∀ s : String, ∃ e, Basis.setK (NumLike.nonNumeric s) = Except.error e) :=
  ⟨fun _ => rfl, fun _ => rfl, fun _ => ⟨_, rfl⟩⟩

/-- C9: the domain setter raises `ValueError` exactly when the new value
does not have length 2; on a raise the stored state is unchanged; and every
length-2 value is accepted and stored, with no requirement that the lower
bound be below the upper bound. -/
theorem domain_setter_validates (st : BasisState) (dnew : List ℚ) :
    ((Basis.setDomain st dnew).2.isSome ↔ dnew.length ≠ 2) ∧
    (dnew.length ≠ 2 →
      Basis.setDomain st dnew = (st, some "domain must be of length 2.")) ∧
    (dnew.length = 2 →
      Basis.setDomain st dnew = (BasisState.mk dnew st.Kstored, none)) := by
  unfold Basis.setDomain
  by_cases h : dnew.length ≠ 2
  · rw [if_pos h]
    exact ⟨by simp [h], fun _ => rfl, fun h2 => absurd h2 h⟩
  · rw [if_neg h]
    push_neg at h
    exact ⟨by simp [h], fun h2 => absurd h h2, fun _ => rfl⟩

theorem domain_setter_validates_witness :
    Basis.setDomain ⟨[0, 1], 3⟩ [5, 1] =
      (BasisState.mk [5, 1] 3, none) :=
  (domain_setter_validates ⟨[0, 1], 3⟩ [5, 1]).2.2 (by decide)
